import Mathlib

/-!
Verification of the Markdown-to-styled-HTML rendering pipeline of the
baoyu-skills repository (the wechat renderer script and its CLI variant).

Strings of the TypeScript source are embedded as `List Char` (`Str`), so
that every definition is executable and every concrete fact is decidable.
JavaScript string/regex operations used by the source (`includes`,
`String.prototype.replace` with literal global patterns, the specific
regexes of `normalizeCssText`, `normalizeInlineCss` and
`modifyHtmlStructure`) are implemented as recursive scanners with the
same matching semantics (leftmost match, greedy/lazy as in the pattern,
case-insensitive where the source uses the `i` flag).
-/

namespace BaoyuMd

abbrev Str := List Char

/-- Embedding of JavaScript `String.prototype.includes`:
`hasSub s pat` is true when `pat` occurs as a contiguous substring of `s`. -/
def hasSub : Str → Str → Bool
  | [], pat => pat.isEmpty
  | s@(_ :: rest), pat => pat.isPrefixOf s || hasSub rest pat

/-- Whitespace test used to embed JavaScript `String.prototype.trim`. -/
def isWsChar (c : Char) : Bool := c.isWhitespace

/-- Embedding of JavaScript `String.prototype.trim`. -/
def trimStr (s : Str) : Str :=
  ((s.dropWhile isWsChar).reverse.dropWhile isWsChar).reverse

/-- `styledContent` from the renderer: class name derivation
(`styleLabel.replace(/_/g, "-")`). -/
def styleClassName (label : Str) : Str :=
  label.map (fun c => if c = '_' then '-' else c)

/-- The `/^h\d$/` test of `styledContent`. -/
def isHeadingTag (tag : Str) : Bool :=
  match tag with
  | [c1, c2] => c1 == 'h' && c2.isDigit
  | _ => false

/-- `styledContent(styleLabel, content, tagName?)` from the renderer:
wraps `content` in `tag` with a CSS class equal to the style label
(underscores replaced by hyphens); heading tags get `data-heading`. -/
def styledContent (styleLabel content : Str) (tagName : Option Str) : Str :=
  let tag := tagName.getD styleLabel
  let headingAttr :=
    if isHeadingTag tag then " data-heading=\"true\"".data else []
  "<".data ++ tag ++ " class=\"".data ++ styleClassName styleLabel
    ++ "\"".data ++ headingAttr ++ ">".data ++ content
    ++ "</".data ++ tag ++ ">".data

/-- The `paragraph` rendering rule, as a function of the already parsed
inline content (`this.parser.parseInline(tokens)` is the external marked
parser): pass the text through when it contains both `<figure` and
`<img`, or trims to empty; otherwise wrap it in a styled `<p>`. -/
def paragraph (text : Str) : Str :=
  let isFigureImage := hasSub text "<figure".data && hasSub text "<img".data
  let isEmpty := (trimStr text).isEmpty
  if isFigureImage || isEmpty then text
  else styledContent "p".data text none

/-- Embedding of JavaScript `String.prototype.split` with a single
separator character (accumulator-based scanner). -/
def splitOnAux (sep : Char) : Str → Str → List Str
  | [], acc => [acc.reverse]
  | c :: rest, acc =>
    if c == sep then acc.reverse :: splitOnAux sep rest []
    else splitOnAux sep rest (c :: acc)

/-- `legend.split("-")` from `transform`. -/
def splitOn (sep : Char) (s : Str) : List Str := splitOnAux sep s []

/-- JavaScript truthiness of a `string | null` value: truthy exactly when
present and non-empty. -/
def otruthy : Option Str → Bool
  | some (_ :: _) => true
  | _ => false

/-- The underlying string of a possibly-null value (only read when truthy). -/
def oval (x : Option Str) : Str := x.getD []

/-- The option loop of `transform`: scan the ordered policy tokens, return
the alt text on token `alt` (when truthy), the title on token `title`
(when truthy), else continue; empty string when the loop falls through. -/
def transformGo (text title : Option Str) : List Str → Str
  | [] => []
  | o :: rest =>
    if o == "alt".data && otruthy text then oval text
    else if o == "title".data && otruthy title then oval title
    else transformGo text title rest

/-- `transform(legend, text, title)` from the renderer: legend-policy
resolution of an image caption. -/
def transform (legend : Str) (text title : Option Str) : Str :=
  transformGo text title (splitOn '-' legend)

/-- The render options record (`IOpts`); every field is optional in the
source, so every field is an `Option` here. -/
structure IOpts where
  legend : Option Str
  citeStatus : Option Bool
  countStatus : Option Bool
  isMacCodeBlock : Option Bool
  isShowLineNumber : Option Bool
  themeMode : Option Str
deriving DecidableEq

/-- The JavaScript spread merge `{ ...opts, ...newOpts }`: a field present
in the update wins, an absent field keeps the old value. -/
def mergeOpts (o n : IOpts) : IOpts where
  legend := match n.legend with | some v => some v | none => o.legend
  citeStatus := match n.citeStatus with | some v => some v | none => o.citeStatus
  countStatus := match n.countStatus with | some v => some v | none => o.countStatus
  isMacCodeBlock := match n.isMacCodeBlock with | some v => some v | none => o.isMacCodeBlock
  isShowLineNumber := match n.isShowLineNumber with | some v => some v | none => o.isShowLineNumber
  themeMode := match n.themeMode with | some v => some v | none => o.themeMode

/-- The `image` rendering rule: resolve the caption from the legend policy
(`opts.legend ? transform(opts.legend, text, title) : ""`), emit an
optional `<figcaption>` and the `<figure>`/`<img>` markup. -/
def image (opts : IOpts) (href : Str) (title : Option Str) (text : Str) : Str :=
  let newText :=
    match opts.legend with
    | some lg => if lg.isEmpty then [] else transform lg (some text) title
    | none => []
  let subText :=
    if newText.isEmpty then [] else styledContent "figcaption".data newText none
  let titleAttr :=
    match title with
    | some t => if t.isEmpty then [] else " title=\"".data ++ t ++ "\"".data
    | none => []
  "<figure><img src=\"".data ++ href ++ "\"".data ++ titleAttr
    ++ " alt=\"".data ++ text ++ "\"/>".data ++ subText ++ "</figure>".data

/-- The footnote registry state of one renderer instance: the `footnotes`
array of `(index, title, link)` triples and the `footnoteIndex` counter. -/
structure FnState where
  fns : List (Nat × Str × Str)
  idx : Nat
deriving DecidableEq

/-- The freshly initialised registry (`footnotes = []`, `footnoteIndex = 0`). -/
def initFnState : FnState := ⟨[], 0⟩

/-- `addFootnote(title, link)`: return the index of the first existing
entry with the same link, or pre-increment the counter and append a new
entry. -/
def addFootnote (title link : Str) (st : FnState) : Nat × FnState :=
  match st.fns.find? (fun e => e.2.2 == link) with
  | some e => (e.1, st)
  | none => (st.idx + 1, ⟨st.fns ++ [(st.idx + 1, title, link)], st.idx + 1⟩)

/-- The mutable state of one renderer instance that the claims touch:
current options plus footnote registry. -/
structure RenderState where
  opts : IOpts
  fn : FnState
deriving DecidableEq

/-- `setOptions(newOpts)`: merge the update into the current options (the
`marked.use` calls only reconfigure the external marked instance). -/
def setOptions (n : IOpts) (st : RenderState) : RenderState :=
  ⟨mergeOpts st.opts n, st.fn⟩

/-- `reset(newOpts)`: clear the footnote registry and counter, then merge
the supplied options. -/
def reset (n : IOpts) (st : RenderState) : RenderState :=
  setOptions n ⟨st.opts, initFnState⟩

/-- The `/^https?:\/\/mp\.weixin\.qq\.com/` test of the `link` rule. -/
def isWeixin (href : Str) : Bool :=
  "http://mp.weixin.qq.com".data.isPrefixOf href
    || "https://mp.weixin.qq.com".data.isPrefixOf href

/-- JavaScript `title || text` for a `string | null` title. -/
def titleOr (title : Option Str) (text : Str) : Str :=
  match title with
  | some (c :: cs) => c :: cs
  | _ => text

/-- An `<a>` element as emitted by the `link` rule. -/
def anchorHtml (href titleText inner : Str) : Str :=
  "<a href=\"".data ++ href ++ "\" title=\"".data ++ titleText
    ++ "\">".data ++ inner ++ "</a>".data

/-- The superscript citation marker `<sup>[ref]</sup>`. -/
def supRef (ref : Nat) : Str := "<sup>[".data ++ (Nat.repr ref).data ++ "]</sup>".data

/-- The `link` rendering rule, as a function of the token fields and the
already parsed inline content: platform links pass through as anchors,
then a link whose text equals its href is unwrapped, then citation mode
registers a footnote and appends a superscript marker. -/
def link (opts : IOpts) (st : FnState) (href : Str) (title : Option Str)
    (text : Str) (parsedText : Str) : Str × FnState :=
  if isWeixin href then (anchorHtml href (titleOr title text) parsedText, st)
  else if href = text then (parsedText, st)
  else if opts.citeStatus = some true then
    let r := addFootnote (titleOr title text) href st
    (anchorHtml href (titleOr title text) (parsedText ++ supRef r.1), r.2)
  else (anchorHtml href (titleOr title text) parsedText, st)

/-- Apply a sequence of `addFootnote` registrations (title, link pairs) to
a registry state, keeping only the state (the render pass's cumulative
effect on the registry). -/
def applyFootnotes (ops : List (Str × Str)) (st : FnState) : FnState :=
  ops.foldl (fun s p => (addFootnote p.1 p.2 s).2) st

/-- The link of a registry entry. -/
def entryLink (e : Nat × Str × Str) : Str := e.2.2

/-- The registry invariant: indices are exactly `1, 2, …, n` in order, the
counter equals the registry length, and links are pairwise distinct. -/
def FnInv (st : FnState) : Prop :=
  st.fns.map Prod.fst = List.range' 1 st.fns.length
    ∧ st.idx = st.fns.length
    ∧ (st.fns.map entryLink).Nodup

theorem fnInv_init : FnInv initFnState := by
  refine ⟨rfl, rfl, List.nodup_nil⟩

theorem find?_eq_none_of_not_mem {l : List (Nat × Str × Str)} {lk : Str}
    (h : ∀ e ∈ l, entryLink e ≠ lk) :
    l.find? (fun e => e.2.2 == lk) = none := by
  rw [List.find?_eq_none]
  intro e he
  simpa [entryLink] using h e he

theorem addFootnote_preserves {t lk : Str} {st : FnState} (h : FnInv st) :
    FnInv (addFootnote t lk st).2 := by
  obtain ⟨hidx, hlen, hnd⟩ := h
  unfold addFootnote
  cases hf : st.fns.find? (fun e => e.2.2 == lk) with
  | some e => exact ⟨hidx, hlen, hnd⟩
  | none =>
    refine ⟨?_, ?_, ?_⟩
    · simp only [List.map_append, List.length_append, List.map_cons,
        List.map_nil, hidx, hlen, List.length_map, List.length_singleton]
      rw [List.range'_concat]
      simp [Nat.add_comm]
    · simp [hlen]
    · rw [List.map_append]
      refine List.Nodup.append hnd (by simp) ?_
      intro a ha hb
      simp only [List.map_cons, List.map_nil, List.mem_singleton] at hb
      subst hb
      obtain ⟨e, he, hlink⟩ := List.mem_map.mp ha
      have := List.find?_eq_none.mp hf e he
      simp only [entryLink] at hlink
      simp [hlink] at this

theorem applyFootnotes_inv (ops : List (Str × Str)) (st : FnState)
    (h : FnInv st) : FnInv (applyFootnotes ops st) := by
  induction ops generalizing st with
  | nil => exact h
  | cons p rest ih => exact ih _ (addFootnote_preserves h)

/-- Within a link-nodup registry, any member entry with a given link is
the one `find?` returns. -/
theorem find?_of_mem_nodup {l : List (Nat × Str × Str)} {lk : Str}
    {e : Nat × Str × Str} (hnd : (l.map entryLink).Nodup)
    (he : e ∈ l) (hl : entryLink e = lk) :
    l.find? (fun x => x.2.2 == lk) = some e := by
  induction l with
  | nil => simp at he
  | cons a rest ih =>
    simp only [List.map_cons, List.nodup_cons] at hnd
    rcases List.mem_cons.mp he with rfl | hmem
    · rw [List.find?_cons_of_pos _ (by simpa [entryLink] using hl)]
    · have hne : (a.2.2 == lk) = false := by
        rw [beq_eq_false_iff_ne]
        intro hbeq
        have : entryLink a = lk := by simpa [entryLink] using hbeq
        exact hnd.1 (this ▸ hl ▸ List.mem_map_of_mem entryLink hmem)
      rw [List.find?_cons, hne]
      exact ih hnd.2 hmem

/-- Spec-side reading of one legend token: `alt` maps to the alt text,
`title` maps to the title, anything else maps to nothing; a token only
yields a value when that value is truthy (present and non-empty). -/
def tokVal (text title : Option Str) (o : Str) : Option Str :=
  if o == "alt".data then (if otruthy text then some (oval text) else none)
  else if o == "title".data then (if otruthy title then some (oval title) else none)
  else none

theorem transformGo_eq_firstMatch (text title : Option Str) (opts : List Str) :
    transformGo text title opts = ((opts.filterMap (tokVal text title)).headD []) := by
  induction opts with
  | nil => rfl
  | cons o rest ih =>
    cases h1 : (o == "alt".data) with
    | true =>
      have ho : o = "alt".data := eq_of_beq h1
      subst ho
      cases ht : otruthy text with
      | true => simp [transformGo, tokVal, ht, List.filterMap_cons]
      | false =>
        have h2 : ("alt".data == "title".data) = false := by decide
        simp [transformGo, tokVal, ht, h2, List.filterMap_cons, ih]
    | false =>
      cases h2 : (o == "title".data) with
      | true =>
        have ho : o = "title".data := eq_of_beq h2
        subst ho
        cases ht : otruthy title with
        | true => simp [transformGo, tokVal, h1, ht, List.filterMap_cons]
        | false => simp [transformGo, tokVal, h1, ht, List.filterMap_cons, ih]
      | false => simp [transformGo, tokVal, h1, h2, List.filterMap_cons, ih]

/-- Claim C1: after any sequence of `addFootnote` registrations within one
render pass, entries are unique by link and the indices are exactly
`1, 2, …, n` in first-seen order; registering an already present link
returns its original index and leaves the registry unchanged, while
registering a new link appends exactly one entry whose index equals the
new registry length. -/
theorem c1_footnote_registry (ops : List (Str × Str)) :
    ((applyFootnotes ops initFnState).fns.map Prod.fst
        = List.range' 1 (applyFootnotes ops initFnState).fns.length
      ∧ ((applyFootnotes ops initFnState).fns.map entryLink).Nodup)
    ∧ (∀ t lk e, e ∈ (applyFootnotes ops initFnState).fns → entryLink e = lk →
        addFootnote t lk (applyFootnotes ops initFnState)
          = (e.1, applyFootnotes ops initFnState))
    ∧ (∀ t lk, (∀ e ∈ (applyFootnotes ops initFnState).fns, entryLink e ≠ lk) →
        addFootnote t lk (applyFootnotes ops initFnState)
          = ((applyFootnotes ops initFnState).fns.length + 1,
             ⟨(applyFootnotes ops initFnState).fns
                ++ [((applyFootnotes ops initFnState).fns.length + 1, t, lk)],
              (applyFootnotes ops initFnState).fns.length + 1⟩)) := by
  have hinv := applyFootnotes_inv ops initFnState fnInv_init
  obtain ⟨hidx, hlen, hnd⟩ := hinv
  refine ⟨⟨hidx, hnd⟩, ?_, ?_⟩
  · intro t lk e he hl
    unfold addFootnote
    rw [find?_of_mem_nodup hnd he hl]
  · intro t lk h
    unfold addFootnote
    rw [find?_eq_none_of_not_mem h, hlen]

/-- Registration sequence used to instantiate the C1 theorem: two distinct
links, with the first one re-cited. -/
def c1ops : List (Str × Str) :=
  [("t1".data, "http://a".data), ("t2".data, "http://b".data),
   ("t3".data, "http://a".data)]

/-- Witness for C1: concrete instantiation discharging both hypotheses
(an existing link returns index 1 and appends nothing; a fresh link gets
index 3 = new length). -/
theorem c1_footnote_registry_witness :
    addFootnote "x".data "http://a".data (applyFootnotes c1ops initFnState)
        = (1, applyFootnotes c1ops initFnState)
      ∧ (addFootnote "x".data "http://c".data
          (applyFootnotes c1ops initFnState)).1 = 3 := by
  constructor
  · exact (c1_footnote_registry c1ops).2.1 "x".data "http://a".data
      (1, "t1".data, "http://a".data) (by decide) (by decide)
  · rw [(c1_footnote_registry c1ops).2.2 "x".data "http://c".data (by decide)]
    decide

/-- Claim C9: `reset` empties the footnote registry and resets the index
(so the next newly cited link receives index 1 again) and merges the
supplied options into the current options. -/
theorem c9_reset (st : RenderState) (n : IOpts) (t lk : Str) :
    (reset n st).fn = initFnState
      ∧ (addFootnote t lk (reset n st).fn).1 = 1
      ∧ (reset n st).opts = mergeOpts st.opts n := by
  exact ⟨rfl, rfl, rfl⟩

/-- Claim C7: `transform` splits the policy on `-` and returns the value
of the first token (in split order) that maps to a non-empty value, empty
string otherwise; consequently `title-alt` returns a non-empty title even
when alt text is present, `alt` never returns the title, `none` always
yields the empty caption, and with legend `none` the `image` rule emits
no `<figcaption>` element. -/
theorem c7_legend_policy :
    (∀ legend text title, transform legend text title
        = ((splitOn '-' legend).filterMap (tokVal text title)).headD [])
    ∧ (∀ text t ts, transform "title-alt".data text (some (t :: ts)) = t :: ts)
    ∧ (∀ text title, transform "alt".data text title
        = (match text with | some (c :: cs) => c :: cs | _ => []))
    ∧ (∀ text title, transform "none".data text title = [])
    ∧ (∀ (base : IOpts) href title text,
        image { base with legend := some "none".data } href title text
          = "<figure><img src=\"".data ++ href ++ "\"".data
              ++ (match title with
                  | some (c :: cs) => " title=\"".data ++ (c :: cs) ++ "\"".data
                  | _ => [])
              ++ " alt=\"".data ++ text ++ "\"/>".data ++ "</figure>".data) := by
  have hsplit : splitOn '-' "title-alt".data = ["title".data, "alt".data] := by decide
  have hnone : ∀ text title, transform "none".data text title = [] := by
    intro text title
    show transformGo text title (splitOn '-' "none".data) = []
    have : splitOn '-' "none".data = ["none".data] := by decide
    rw [this]
    have h1 : ("none".data == "alt".data) = false := by decide
    have h2 : ("none".data == "title".data) = false := by decide
    simp [transformGo, h1, h2]
  refine ⟨fun legend text title => transformGo_eq_firstMatch text title _, ?_, ?_, hnone, ?_⟩
  · intro text t ts
    show transformGo text (some (t :: ts)) (splitOn '-' "title-alt".data) = t :: ts
    rw [hsplit]
    have h1 : ("title".data == "alt".data) = false := by decide
    have h2 : ("title".data == "title".data) = true := by decide
    simp [transformGo, h1, h2, otruthy, oval]
  · intro text title
    show transformGo text title (splitOn '-' "alt".data) = _
    have : splitOn '-' "alt".data = ["alt".data] := by decide
    rw [this]
    have h1 : ("alt".data == "alt".data) = true := by decide
    have h2 : ("alt".data == "title".data) = false := by decide
    cases text with
    | none => simp [transformGo, h1, h2, otruthy, oval]
    | some v =>
      cases v with
      | nil => simp [transformGo, h1, h2, otruthy, oval]
      | cons c cs => simp [transformGo, h1, h2, otruthy, oval]
  · intro base href title text
    show image _ href title text = _
    unfold image
    simp only [hnone]
    cases title with
    | none => simp
    | some v =>
      cases v with
      | nil => simp
      | cons c cs => simp

/-- A paragraph inline content mixing ordinary text with a figure/image. -/
def c4mixed : Str := "hello <figure><img src=\"x\"/></figure>".data

/-- Claim C4 counterexample: a paragraph mixing an image with other text is
NOT wrapped in `<p>` — the rule only tests substring containment of
`<figure` and `<img`, not that the content is solely a figure/image. -/
theorem c4_counterexample :
    paragraph c4mixed = c4mixed
      ∧ paragraph c4mixed ≠ styledContent "p".data c4mixed none := by
  constructor
  · decide
  · decide

/-- Claim C4 as amended: the paragraph rule passes its content through
unwrapped exactly when the content contains both `<figure` and `<img` as
substrings (even when mixed with other text) or trims to empty; in every
other case it wraps the content in the styled `<p>` element. -/
theorem c4_paragraph_unwrap_iff (text : Str) :
    paragraph text = text
      ↔ ((hasSub text "<figure".data && hasSub text "<img".data)
          || (trimStr text).isEmpty) = true := by
  unfold paragraph
  by_cases h : ((hasSub text "<figure".data && hasSub text "<img".data)
      || (trimStr text).isEmpty) = true
  · simp [h]
  · rw [if_neg (by simpa using h)]
    constructor
    · intro heq
      exfalso
      have hlen := congrArg List.length heq
      simp [styledContent, styleClassName, isHeadingTag] at hlen
      omega
    · intro hh
      exact absurd hh h

/-- A link pointing at the target publishing platform. -/
def c5href : Str := "https://mp.weixin.qq.com/s/abc".data

/-- Options with citation mode on. -/
def c5optsCite : IOpts := ⟨none, some true, none, none, none, none⟩

/-- Options with citation mode off. -/
def c5optsNo : IOpts := ⟨none, some false, none, none, none, none⟩

/-- Claim C5 counterexample: for a platform (`mp.weixin.qq.com`) link whose
visible text equals its href, the rule emits an `<a>` anchor (the platform
branch has priority over the text-equals-href unwrap), in both citation
modes — not the plain text the claim requires for every such href. -/
theorem c5_counterexample :
    (link c5optsCite initFnState c5href none c5href c5href).1 ≠ c5href
      ∧ (link c5optsNo initFnState c5href none c5href c5href).1 ≠ c5href := by
  constructor
  · decide
  · decide

/-- Claim C5 as amended: for every link whose visible text equals its href
and whose href does NOT match the publishing-platform prefix, the rule
returns the parsed inline text with no anchor and leaves the footnote
state unchanged, regardless of citation mode; platform links are emitted
as anchors even when text equals href. -/
theorem c5_link_unwrap (opts : IOpts) (st : FnState) (href : Str)
    (title : Option Str) (parsedText : Str) (hw : isWeixin href = false) :
    link opts st href title href parsedText = (parsedText, st) := by
  unfold link
  simp [hw]

/-- Witness for C5: a non-platform link with text equal to href unwraps to
plain text in citation mode. -/
theorem c5_link_unwrap_witness :
    link c5optsCite initFnState "https://example.com".data none
        "https://example.com".data "X".data = ("X".data, initFnState) :=
  c5_link_unwrap c5optsCite initFnState "https://example.com".data none
    "X".data (by decide)

mutual
/-- The mdast-style syntax tree walked by `preprocessCjkEmphasis`: leaves
carry a node type and a string value (`text`, `html`, …); interior nodes
carry a node type and a child list (`root`, `paragraph`, `strong`,
`emphasis`, `link`, …). The remark parse/stringify round trip around the
walk is an external library; the tree walk itself is embedded below. -/
inductive MdNode where
  | leaf (ty : Str) (value : Str)
  | branch (ty : Str) (children : MdNodeList)
inductive MdNodeList where
  | nil
  | cons (n : MdNode) (ns : MdNodeList)
end

mutual
/-- `extractText` from `preprocessCjkEmphasis`: a `text` leaf yields its
value, a node with children yields the concatenation of its children's
texts, anything else yields the empty string. -/
def extractText : MdNode → Str
  | .leaf ty v => if ty = "text".data then v else []
  | .branch _ cs => extractTextList cs
def extractTextList : MdNodeList → Str
  | .nil => []
  | .cons n ns => extractText n ++ extractTextList ns
end

mutual
/-- The `visit` walk of `preprocessCjkEmphasis` on a non-root node:
children are processed first (each child replaced in place), then a
`strong`/`emphasis` node is itself replaced by a raw `html` leaf wrapping
the flattened text of the node whose children were already rewritten. -/
def transformNode : MdNode → MdNode
  | .leaf ty v => .leaf ty v
  | .branch ty cs =>
    let cs2 := transformList cs
    if ty = "strong".data then
      .leaf "html".data
        ("<strong>".data ++ extractText (.branch ty cs2) ++ "</strong>".data)
    else if ty = "emphasis".data then
      .leaf "html".data
        ("<em>".data ++ extractText (.branch ty cs2) ++ "</em>".data)
    else .branch ty cs2
def transformList : MdNodeList → MdNodeList
  | .nil => .nil
  | .cons n ns => .cons (transformNode n) (transformList ns)
end

/-- `visit(tree)` at the root: the root has no parent, so its children are
rewritten but the root node itself is never replaced. -/
def visitRoot : MdNode → MdNode
  | .leaf ty v => .leaf ty v
  | .branch ty cs => .branch ty (transformList cs)

mutual
/-- The text that actually survives into the wrapping tags: direct text
outside nested `strong`/`emphasis` nodes (those were already rewritten to
`html` leaves, which flatten to the empty string). -/
def droppedText : MdNode → Str
  | .leaf ty v => if ty = "text".data then v else []
  | .branch ty cs =>
    if ty = "strong".data ∨ ty = "emphasis".data then [] else droppedList cs
def droppedList : MdNodeList → Str
  | .nil => []
  | .cons n ns => droppedText n ++ droppedList ns
end

mutual
theorem extractText_transformNode (n : MdNode) :
    extractText (transformNode n) = droppedText n := by
  cases n with
  | leaf ty v => rfl
  | branch ty cs =>
    by_cases h1 : ty = "strong".data
    · simp [transformNode, extractText, droppedText, h1]
    · by_cases h2 : ty = "emphasis".data
      · simp [transformNode, extractText, droppedText, h1, h2]
      · simp [transformNode, extractText, droppedText, h1, h2,
          extractTextList_transformList cs]
theorem extractTextList_transformList (ns : MdNodeList) :
    extractTextList (transformList ns) = droppedList ns := by
  cases ns with
  | nil => rfl
  | cons n ns =>
    simp [transformList, extractTextList, droppedList,
      extractText_transformNode n, extractTextList_transformList ns]
end

/-- A `strong` node with a nested `emphasis` node between two text leaves:
the tree of `**a *b* c**` under the CJK-friendly grammar. -/
def c2strong : MdNode :=
  .branch "strong".data
    (.cons (.leaf "text".data "a".data)
      (.cons (.branch "emphasis".data (.cons (.leaf "text".data "b".data) .nil))
        (.cons (.leaf "text".data "c".data) .nil)))

/-- Claim C2 counterexample: the emphasis node nested inside a strong node
has its text dropped, not preserved — the child is rewritten to an `html`
leaf first, and `extractText` flattens `html` leaves to the empty string,
so `**a *b* c**` becomes `<strong>ac</strong>` with no `b`. -/
theorem c2_counterexample :
    transformNode c2strong = .leaf "html".data "<strong>ac</strong>".data
      ∧ hasSub "<strong>ac</strong>".data "b".data = false := by
  constructor
  · simp [c2strong, transformNode, transformList, extractText, extractTextList]
  · decide

/-- Claim C2 as amended: every `strong`/`emphasis` node is replaced by a
raw HTML node wrapping the flattened text computed AFTER its children were
rewritten; children that were themselves `strong`/`emphasis` (and any
non-`text` leaf) flatten to the empty string, so the text of an emphasis
nested inside a strong (or vice versa) is dropped rather than preserved;
nodes of any other type are not altered (only their children are
rewritten in place). -/
theorem c2_emphasis_rewrite :
    (∀ cs, transformNode (.branch "strong".data cs)
        = .leaf "html".data ("<strong>".data ++ droppedList cs ++ "</strong>".data))
    ∧ (∀ cs, transformNode (.branch "emphasis".data cs)
        = .leaf "html".data ("<em>".data ++ droppedList cs ++ "</em>".data))
    ∧ (∀ ty cs, ty ≠ "strong".data → ty ≠ "emphasis".data →
        transformNode (.branch ty cs) = .branch ty (transformList cs)) := by
  refine ⟨?_, ?_, ?_⟩
  · intro cs
    simp [transformNode, extractText, extractTextList_transformList cs]
  · intro cs
    simp [transformNode, extractText, extractTextList_transformList cs]
  · intro ty cs h1 h2
    simp [transformNode, h1, h2]

/-- Witness for C2's amended theorem: a `paragraph` node is not replaced,
only its (empty) child list is rewritten. -/
theorem c2_emphasis_rewrite_witness :
    transformNode (.branch "paragraph".data .nil)
      = .branch "paragraph".data (transformList .nil) :=
  c2_emphasis_rewrite.2.2 "paragraph".data .nil (by decide) (by decide)

/-- Embedding of `String.prototype.replace(/literal/g, rep)`: replace every
occurrence of `pat`, scanning left to right, continuing after each
replacement (fuel-driven; one character is consumed per step at minimum,
so fuel `s.length` always suffices). -/
def replA (pat rep : Str) : Nat → Str → Str
  | 0, s => s
  | _ + 1, [] => []
  | f + 1, c :: rest =>
    if pat.isPrefixOf (c :: rest) then
      rep ++ replA pat rep f (rest.drop (pat.length - 1))
    else c :: replA pat rep f rest

/-- `replaceAll pat rep s`: `s.replace(/pat/g, rep)` for a literal pattern. -/
def replaceAll (pat rep s : Str) : Str := replA pat rep s.length s

theorem replA_id (pat rep : Str) :
    ∀ (f : Nat) (s : Str), hasSub s pat = false → replA pat rep f s = s := by
  intro f
  induction f with
  | zero => intro s _; rfl
  | succ f ih =>
    intro s h
    cases s with
    | nil => rfl
    | cons c rest =>
      rw [hasSub, Bool.or_eq_false_iff] at h
      rw [replA, if_neg (by simp [h.1]), ih rest h.2]

theorem replaceAll_id (pat rep s : Str) (h : hasSub s pat = false) :
    replaceAll pat rep s = s := replA_id pat rep s.length s h

/-- A character matched by the `[^;"']` class of the custom-property
declaration regexes in `normalizeCssText`. -/
def allowedDeclChar (c : Char) : Bool :=
  !(c == ';' || c == '"' || c == Char.ofNat 39)

/-- One attempted match of `NAME:\s*[^;"']+;?` at the start of `s` (the
embedded name string already carries the trailing colon). Since every
`\s` character is also in `[^;"']`, the greedy/backtracking combination
`\s*[^;"']+` consumes exactly the maximal run of characters outside
`;"'` following the name, and succeeds exactly when that run is
non-empty; a following `;` is then consumed if present. Returns the rest
of the string after the match. -/
def tryDecl (name : Str) (s : Str) : Option Str :=
  if name.isPrefixOf s then
    let r1 := s.drop name.length
    let body := r1.takeWhile allowedDeclChar
    if body.isEmpty then none
    else
      match r1.drop body.length with
      | ';' :: r4 => some r4
      | r3 => some r3
  else none

/-- Global removal of `NAME:\s*[^;"']+;?` matches (the replacement is the
empty string), scanning left to right. -/
def stripA (name : Str) : Nat → Str → Str
  | 0, s => s
  | _ + 1, [] => []
  | f + 1, c :: rest =>
    match tryDecl name (c :: rest) with
    | some remaining => stripA name f remaining
    | none => c :: stripA name f rest

/-- `s.replace(/NAME:\s*[^;"']+;?/g, "")`. -/
def stripDecls (name s : Str) : Str := stripA name s.length s

theorem stripA_id (name : Str) :
    ∀ (f : Nat) (s : Str), hasSub s name = false → stripA name f s = s := by
  intro f
  induction f with
  | zero => intro s _; rfl
  | succ f ih =>
    intro s h
    cases s with
    | nil => rfl
    | cons c rest =>
      rw [hasSub, Bool.or_eq_false_iff] at h
      have hd : tryDecl name (c :: rest) = none := by
        rw [tryDecl, if_neg (by simp [h.1])]
      rw [stripA, hd, ih rest h.2]

theorem stripDecls_id (name s : Str) (h : hasSub s name = false) :
    stripDecls name s = s := stripA_id name s.length s h

/-- The style configuration record (`StyleConfig`). -/
structure StyleConfig where
  primaryColor : Str
  fontFamily : Str
  fontSize : Str
  foreground : Str
  blockquoteBackground : Str
  accentColor : Str
  containerBg : Str
deriving DecidableEq

/-- `FONT_FAMILY_MAP.sans`. -/
def sansFontFamily : Str :=
  "-apple-system-font,BlinkMacSystemFont, Helvetica Neue, PingFang SC, Hiragino Sans GB , Microsoft YaHei UI , Microsoft YaHei ,Arial,sans-serif".data

/-- `DEFAULT_STYLE`. -/
def DEFAULT_STYLE : StyleConfig :=
  ⟨"#0F4C81".data, sansFontFamily, "16px".data, "0 0% 3.9%".data,
   "#f7f7f7".data, "#6B7280".data, "transparent".data⟩

/-- `normalizeCssText(cssText, style)`: replace the six fixed
`var(--name)` references and `hsl(var(--foreground))` by their configured
literal values, then strip the seven fixed custom-property declarations —
applications are nested in source order (innermost first). -/
def normalizeCssText (style : StyleConfig) (cssText : Str) : Str :=
  stripDecls "--foreground:".data
    (stripDecls "--md-container-bg:".data
      (stripDecls "--md-accent-color:".data
        (stripDecls "--blockquote-background:".data
          (stripDecls "--md-font-size:".data
            (stripDecls "--md-font-family:".data
              (stripDecls "--md-primary-color:".data
                (replaceAll "hsl(var(--foreground))".data "#3f3f3f".data
                  (replaceAll "var(--md-container-bg)".data style.containerBg
                    (replaceAll "var(--md-accent-color)".data style.accentColor
                      (replaceAll "var(--blockquote-background)".data style.blockquoteBackground
                        (replaceAll "var(--md-font-size)".data style.fontSize
                          (replaceAll "var(--md-font-family)".data style.fontFamily
                            (replaceAll "var(--md-primary-color)".data style.primaryColor
                              cssText)))))))))))))

/-- Case folding used to embed the `i` regex flag. -/
def lc (c : Char) : Char := c.toLower

/-- Case-insensitive pattern-at-start test (the pattern must fit). -/
def ciPre : Str → Str → Bool
  | [], _ => true
  | _ :: _, [] => false
  | p :: ps, c :: cs => (lc p == lc c) && ciPre ps cs

/-- Split `s` at the first (leftmost) case-insensitive occurrence of
`pat`, returning the part before it and the part after it. -/
def splitAtCi (pat : Str) : Str → Option (Str × Str)
  | [] => none
  | c :: rest =>
    if ciPre pat (c :: rest) then some ([], (c :: rest).drop pat.length)
    else
      match splitAtCi pat rest with
      | some (b, a) => some (c :: b, a)
      | none => none

/-- The `/<style([^>]*)>([\s\S]*?)<\/style>/gi` replacement pass of
`normalizeInlineCss`: each matched block is re-emitted with a literal
lowercase `<style`/`</style>` template around the captured attributes and
the normalized CSS text. -/
def passStyleTags (style : StyleConfig) : Nat → Str → Str
  | 0, s => s
  | _ + 1, [] => []
  | f + 1, c :: rest =>
    if ciPre "<style".data (c :: rest) then
      let r1 := (c :: rest).drop 6
      let attrs := r1.takeWhile (· != '>')
      match r1.drop attrs.length with
      | '>' :: r2 =>
        match splitAtCi "</style>".data r2 with
        | some (content, after) =>
          "<style".data ++ attrs
            ++ '>' :: (normalizeCssText style content
                ++ "</style>".data ++ passStyleTags style f after)
        | none => c :: passStyleTags style f rest
      | _ => c :: passStyleTags style f rest
    else c :: passStyleTags style f rest

/-- The `/style="([^"]*)"/gi` (and single-quote) replacement pass of
`normalizeInlineCss`, for quote character `q`: the captured value is
normalized and re-emitted inside a literal lowercase `style=` template. -/
def passAttr (style : StyleConfig) (q : Char) : Nat → Str → Str
  | 0, s => s
  | _ + 1, [] => []
  | f + 1, c :: rest =>
    if ciPre ("style=".data ++ [q]) (c :: rest) then
      let r1 := (c :: rest).drop 7
      let v := r1.takeWhile (· != q)
      match r1.drop v.length with
      | _ :: r2 =>
        "style=".data ++ q :: (normalizeCssText style v ++ q :: passAttr style q f r2)
      | [] => c :: passAttr style q f rest
    else c :: passAttr style q f rest

/-- The double-quote character. -/
def dqChar : Char := Char.ofNat 34

/-- The single-quote character. -/
def sqChar : Char := Char.ofNat 39

/-- `normalizeInlineCss(html, style)`: normalize the CSS inside `<style>`
blocks, then inside double-quoted `style` attributes, then inside
single-quoted ones. -/
def normalizeInlineCss (style : StyleConfig) (html : Str) : Str :=
  let h1 := passStyleTags style html.length html
  let h2 := passAttr style dqChar h1.length h1
  passAttr style sqChar h2.length h2

/-- An HTML fragment whose inline style references a custom property
outside the fixed set handled by `normalizeCssText`. -/
def c3attr : Str := "<p style=\"color:var(--other)\">x</p>".data

/-- Claim C3 counterexample: after the post-inlining normalization step,
a `var(--other)` reference (a custom property outside the fixed set named
in the style configuration) still remains in the output. -/
theorem c3_counterexample :
    hasSub (normalizeInlineCss DEFAULT_STYLE c3attr) "var(--".data = true := by
  decide

/-- Claim C3 as amended: the normalization step rewrites exactly the fixed
set of custom-property references named in `normalizeCssText` (the six
`var(--name)` forms and `hsl(var(--foreground))`); a reference to any
other custom-property name survives: CSS text whose only custom-property
reference is `var(--other)` passes through `normalizeCssText` unchanged
for every style configuration, and through the full `normalizeInlineCss`
unchanged under the default configuration, while a fixed-set reference
such as `var(--md-primary-color)` is resolved to its configured literal
value. -/
theorem c3_var_normalization :
    (∀ style : StyleConfig,
        normalizeCssText style "color:var(--other)".data
          = "color:var(--other)".data)
    ∧ normalizeInlineCss DEFAULT_STYLE c3attr = c3attr
    ∧ normalizeCssText DEFAULT_STYLE "color:var(--md-primary-color)".data
        = "color:#0F4C81".data := by
  refine ⟨?_, by decide, by decide⟩
  intro style
  unfold normalizeCssText
  rw [replaceAll_id "var(--md-primary-color)".data style.primaryColor
      "color:var(--other)".data (by decide),
    replaceAll_id "var(--md-font-family)".data style.fontFamily
      "color:var(--other)".data (by decide),
    replaceAll_id "var(--md-font-size)".data style.fontSize
      "color:var(--other)".data (by decide),
    replaceAll_id "var(--blockquote-background)".data style.blockquoteBackground
      "color:var(--other)".data (by decide),
    replaceAll_id "var(--md-accent-color)".data style.accentColor
      "color:var(--other)".data (by decide),
    replaceAll_id "var(--md-container-bg)".data style.containerBg
      "color:var(--other)".data (by decide),
    replaceAll_id "hsl(var(--foreground))".data "#3f3f3f".data
      "color:var(--other)".data (by decide),
    stripDecls_id "--md-primary-color:".data "color:var(--other)".data (by decide),
    stripDecls_id "--md-font-family:".data "color:var(--other)".data (by decide),
    stripDecls_id "--md-font-size:".data "color:var(--other)".data (by decide),
    stripDecls_id "--blockquote-background:".data "color:var(--other)".data (by decide),
    stripDecls_id "--md-accent-color:".data "color:var(--other)".data (by decide),
    stripDecls_id "--md-container-bg:".data "color:var(--other)".data (by decide),
    stripDecls_id "--foreground:".data "color:var(--other)".data (by decide)]

/-- The result of splitting front matter from a document. -/
structure FMResult where
  yaml : Str
  body : Str
deriving DecidableEq

/-- Find the closing `\n---\n` delimiter of a front-matter block, splitting
into the YAML content before it and the body after it. -/
def findFMDelim : Str → Option (Str × Str)
  | [] => none
  | c :: rest =>
    if "\n---\n".data.isPrefixOf (c :: rest) then
      some ([], (c :: rest).drop 5)
    else
      match findFMDelim rest with
      | some (y, b) => some (c :: y, b)
      | none => none

/-- Modelled from the spec: `parseFrontMatterAndContent` delegates to the
external `front-matter` library, which splits a leading `---` metadata
block (opened by `---` on the first line, closed by the next `---` line)
from the Markdown body; without a leading block the whole input is the
body and the metadata is empty. -/
def parseFrontMatterAndContent (s : Str) : FMResult :=
  if "---\n".data.isPrefixOf s then
    match findFMDelim (s.drop 4) with
    | some (y, b) => ⟨y, b⟩
    | none => ⟨[], s⟩
  else ⟨[], s⟩

/-- Modelled from the spec: a stand-in for the external remark
parse/stringify round trip inside the CJK emphasis normalizer, capturing
only that re-serialization does not preserve `---` delimiter lines (remark
re-emits thematic breaks as `***`), so a metadata block does not survive
the round trip. -/
def cjkRoundTripStandIn (s : Str) : Str := replaceAll "---".data "***".data s

/-- `renderMarkdown` as defined in the CLI script (`part_000`): the CJK
normalizer is applied to the raw input first, and front-matter splitting
(and the reading-time source text) comes from the preprocessed text. The
external CJK round trip and `marked.parse` are passed as functions.
Returns the rendered html and the text the reading time is computed from. -/
def renderMarkdownCli (cjkNormalize markedParse : Str → Str) (raw : Str) :
    Str × Str :=
  let preprocessed := cjkNormalize raw
  let r := parseFrontMatterAndContent preprocessed
  (markedParse r.body, r.body)

/-- `renderMarkdown` as defined in the wechat renderer module
(`renderer.ts`): front matter is split off first, and the CJK normalizer
is applied to the body only; the reading time is computed from the raw
body. -/
def renderMarkdownWechat (cjkNormalize markedParse : Str → Str) (raw : Str) :
    Str × Str :=
  let r := parseFrontMatterAndContent raw
  (markedParse (cjkNormalize r.body), r.body)

/-- A document with a metadata block. -/
def c6doc : Str := "---\ntitle: Hi\n---\nbody hello".data

/-- Claim C6 evidence: on a document with a metadata block, the CLI
script's `renderMarkdown` (normalize first, split later) leaks the
metadata into the rendered output — the `title:` line survives into the
html and the reading-time text — while the renderer-module order (split
first) keeps it out; so the CJK normalizer is applied to raw text that
still contains the metadata block, contrary to the claim. -/
theorem c6_pipeline_order :
    hasSub (renderMarkdownCli cjkRoundTripStandIn id c6doc).1 "title: Hi".data = true
      ∧ hasSub (renderMarkdownWechat cjkRoundTripStandIn id c6doc).1 "title: Hi".data = false
      ∧ (renderMarkdownCli cjkRoundTripStandIn id c6doc).2
          ≠ (parseFrontMatterAndContent c6doc).body := by
  refine ⟨by decide, by decide, by decide⟩

/-- A case-insensitive `<ul`/`<ol` sub-list opening at the start of `s`
(the alternation heads of the `modifyHtmlStructure` pattern). -/
def ulAt (s : Str) : Bool := ciPre "<ul".data s || ciPre "<ol".data s

/-- Number of positions of `s` at which a sub-list opening occurs. -/
def cnt : Str → Nat
  | [] => 0
  | c :: rest => (if ulAt (c :: rest) then 1 else 0) + cnt rest

/-- Sum of the positions of `s` at which a sub-list opening occurs (the
termination measure core: each structure-repair rewrite moves every
sub-list opening inside the matched sub-list five characters to the
right and moves nothing else, so this sum strictly grows while the
length stays fixed). -/
def psum : Str → Nat
  | [] => 0
  | _ :: rest => psum rest + cnt rest

theorem ciPre_append_of_le (pat : Str) :
    ∀ (u y : Str), pat.length ≤ u.length → ciPre pat (u ++ y) = ciPre pat u := by
  induction pat with
  | nil => intro u y _; rfl
  | cons p ps ih =>
    intro u y h
    cases u with
    | nil => simp at h
    | cons c cu =>
      simp only [List.cons_append, ciPre, List.append_eq]
      rw [ih cu y (by simpa using h)]

theorem ciPre_short (pat : Str) :
    ∀ (s : Str), s.length < pat.length → ciPre pat s = false := by
  induction pat with
  | nil => intro s h; simp at h
  | cons p ps ih =>
    intro s h
    cases s with
    | nil => rfl
    | cons c cs =>
      simp only [ciPre]
      rw [ih cs (by simpa using h)]
      simp

theorem ciPre_le_length (pat : Str) :
    ∀ (s : Str), ciPre pat s = true → pat.length ≤ s.length := by
  intro s h
  by_contra hlt
  rw [ciPre_short pat s (by omega)] at h
  exact Bool.false_ne_true h

theorem ulAt_append_of_le {u : Str} (y : Str) (h : 3 ≤ u.length) :
    ulAt (u ++ y) = ulAt u := by
  unfold ulAt
  rw [ciPre_append_of_le _ u y (by simpa using h),
    ciPre_append_of_le _ u y (by simpa using h)]

theorem ulAt_short {s : Str} (h : s.length ≤ 2) : ulAt s = false := by
  unfold ulAt
  rw [ciPre_short _ s (by simpa using Nat.lt_succ_of_le h),
    ciPre_short _ s (by simpa using Nat.lt_succ_of_le h)]
  rfl

theorem ciPre_congr (pat : Str) :
    ∀ {u v : Str}, u.map lc = v.map lc → ciPre pat u = ciPre pat v := by
  induction pat with
  | nil => intro u v _; rfl
  | cons p ps ih =>
    intro u v h
    cases u with
    | nil =>
      cases v with
      | nil => rfl
      | cons d dv => simp at h
    | cons c cu =>
      cases v with
      | nil => simp at h
      | cons d dv =>
        simp only [List.map_cons, List.cons.injEq] at h
        simp only [ciPre, h.1, ih h.2]

theorem ulAt_congr {u v : Str} (h : u.map lc = v.map lc) : ulAt u = ulAt v := by
  unfold ulAt
  rw [ciPre_congr _ h, ciPre_congr _ h]

theorem mapLc_length {u v : Str} (h : u.map lc = v.map lc) :
    u.length = v.length := by
  have := congrArg List.length h
  simpa using this

theorem cnt_congr : ∀ {u v : Str}, u.map lc = v.map lc → cnt u = cnt v := by
  intro u
  induction u with
  | nil =>
    intro v h
    cases v with
    | nil => rfl
    | cons d dv => simp at h
  | cons c cu ih =>
    intro v h
    cases v with
    | nil => simp at h
    | cons d dv =>
      simp only [List.map_cons, List.cons.injEq] at h
      have h2 : cu.map lc = dv.map lc := h.2
      have hall : (c :: cu).map lc = (d :: dv).map lc := by simp [h.1, h2]
      simp only [cnt, ulAt_congr hall, ih h2]

theorem psum_congr : ∀ {u v : Str}, u.map lc = v.map lc → psum u = psum v := by
  intro u
  induction u with
  | nil =>
    intro v h
    cases v with
    | nil => rfl
    | cons d dv => simp at h
  | cons c cu ih =>
    intro v h
    cases v with
    | nil => simp at h
    | cons d dv =>
      simp only [List.map_cons, List.cons.injEq] at h
      have h2 : cu.map lc = dv.map lc := h.2
      simp only [psum, ih h2, cnt_congr h2]

/-- No sub-list opening straddles the boundary of `x ++ y`: every short
(length 1 or 2) suffix of `x`, extended by `y`, fails to open a sub-list. -/
def bok (x y : Str) : Prop :=
  ∀ u, u <:+ x → u ≠ [] → u.length ≤ 2 → ulAt (u ++ y) = false

theorem ulAt_cons_stable {x' y : Str} {c : Char} (h : bok (c :: x') y) :
    ulAt (c :: (x' ++ y)) = ulAt (c :: x') := by
  by_cases h3 : 3 ≤ (c :: x').length
  · have := ulAt_append_of_le (u := c :: x') y h3
    simpa using this
  · have hshort : (c :: x').length ≤ 2 := by omega
    have h1 := h (c :: x') List.suffix_rfl (by simp) hshort
    rw [ulAt_short hshort]
    simpa using h1

theorem cnt_append {x y : Str} (h : bok x y) : cnt (x ++ y) = cnt x + cnt y := by
  induction x with
  | nil => simp [cnt]
  | cons c x' ih =>
    have hx' : bok x' y := fun u hu hne hlen =>
      h u (hu.trans (List.suffix_cons c x')) hne hlen
    show (if ulAt (c :: (x' ++ y)) then 1 else 0) + cnt (x' ++ y)
      = ((if ulAt (c :: x') then 1 else 0) + cnt x') + cnt y
    rw [ulAt_cons_stable h, ih hx']
    ring

theorem psum_append {x y : Str} (h : bok x y) :
    psum (x ++ y) = psum x + x.length * cnt y + psum y := by
  induction x with
  | nil => simp [psum]
  | cons c x' ih =>
    have hx' : bok x' y := fun u hu hne hlen =>
      h u (hu.trans (List.suffix_cons c x')) hne hlen
    show psum (x' ++ y) + cnt (x' ++ y)
      = (psum x' + cnt x') + (x'.length + 1) * cnt y + psum y
    rw [ih hx', cnt_append hx']
    ring

theorem ulAt_cons_ne {c : Char} {z : Str} (h : lc c ≠ '<') :
    ulAt (c :: z) = false := by
  unfold ulAt ciPre
  have : (lc '<' == lc c) = false := by
    rw [beq_eq_false_iff_ne]
    intro he
    exact h (he.symm.trans (by decide))
  simp [this]

/-- `bok` holds whenever the right side starts with a character that can
play none of the non-initial roles of `<ul`/`<ol` (not `u`, `o` or `l`
up to case); in particular whenever it starts with `<` or `>`. -/
theorem bok_of_head {y : Str}
    (h : ∀ c cs, y = c :: cs → lc c ≠ 'u' ∧ lc c ≠ 'o' ∧ lc c ≠ 'l')
    (x : Str) : bok x y := by
  intro u _ hne hlen
  rcases u with _ | ⟨a, _ | ⟨b, _ | ⟨e, rest⟩⟩⟩
  · exact absurd rfl hne
  · cases y with
    | nil =>
      show ulAt ([a] ++ []) = false
      simpa using ulAt_short (s := [a]) (by simp)
    | cons c cs =>
      obtain ⟨hu, ho, hl⟩ := h c cs rfl
      show ulAt (a :: c :: cs) = false
      unfold ulAt ciPre
      have h1 : (lc 'u' == lc c) = false := by
        rw [beq_eq_false_iff_ne]; intro he; exact hu (he.symm.trans (by decide))
      have h2 : (lc 'o' == lc c) = false := by
        rw [beq_eq_false_iff_ne]; intro he; exact ho (he.symm.trans (by decide))
      simp [ciPre, h1, h2]
  · cases y with
    | nil =>
      show ulAt ([a, b] ++ []) = false
      simpa using ulAt_short (s := [a, b]) (by simp)
    | cons c cs =>
      obtain ⟨hu, ho, hl⟩ := h c cs rfl
      show ulAt (a :: b :: c :: cs) = false
      unfold ulAt ciPre
      have h1 : (lc 'l' == lc c) = false := by
        rw [beq_eq_false_iff_ne]; intro he; exact hl (he.symm.trans (by decide))
      simp [ciPre, h1]
  · simp at hlen

theorem suffix_eq_of_length {u v x : Str} (hu : u <:+ x) (hv : v <:+ x)
    (h : u.length = v.length) : u = v := by
  obtain ⟨t1, h1⟩ := hu
  obtain ⟨t2, h2⟩ := hv
  have hx : t1 ++ u = t2 ++ v := h1.trans h2.symm
  have hlen : t1.length = t2.length := by
    have := congrArg List.length hx
    simp at this
    omega
  exact (List.append_inj hx hlen).2

/-- `bok` holds whenever the last two characters of the left side are both
different from `<` up to case (no sub-list opening can start there). -/
theorem bok_of_last2 {x : Str} (p q : Char) (hpq : [p, q] <:+ x)
    (hp : lc p ≠ '<') (hq : lc q ≠ '<') (y : Str) : bok x y := by
  intro u hu hne hlen
  rcases u with _ | ⟨a, _ | ⟨b, _ | ⟨e, rest⟩⟩⟩
  · exact absurd rfl hne
  · have hqx : [q] <:+ x := (List.suffix_cons p [q]).trans hpq
    have heq : ([a] : Str) = [q] := suffix_eq_of_length hu hqx rfl
    injection heq with h1 _
    subst h1
    exact ulAt_cons_ne hq
  · have heq : ([a, b] : Str) = [p, q] := suffix_eq_of_length hu hpq rfl
    injection heq with h1 h2
    injection h2 with h3 _
    subst h1
    subst h3
    exact ulAt_cons_ne hp
  · simp at hlen

theorem cnt_le (s : Str) : cnt s ≤ s.length := by
  induction s with
  | nil => simp [cnt]
  | cons c rest ih =>
    show (if ulAt (c :: rest) then 1 else 0) + cnt rest ≤ rest.length + 1
    split <;> omega

theorem cnt_cons_le {c : Char} {rest : Str} : cnt rest ≤ cnt (c :: rest) := by
  show cnt rest ≤ (if ulAt (c :: rest) then 1 else 0) + cnt rest
  split <;> omega

theorem psum_le (s : Str) : psum s ≤ s.length * s.length := by
  have key : ∀ t : Str, psum t ≤ t.length * cnt t := by
    intro t
    induction t with
    | nil => simp [psum]
    | cons c rest ih =>
      show psum rest + cnt rest ≤ (rest.length + 1) * cnt (c :: rest)
      have h1 : psum rest ≤ rest.length * cnt rest := ih
      have h2 : cnt rest ≤ cnt (c :: rest) := cnt_cons_le
      have h3 : rest.length * cnt rest ≤ rest.length * cnt (c :: rest) :=
        Nat.mul_le_mul_left _ h2
      calc psum rest + cnt rest ≤ rest.length * cnt (c :: rest) + cnt (c :: rest) := by omega
        _ = (rest.length + 1) * cnt (c :: rest) := by ring
  calc psum s ≤ s.length * cnt s := key s
    _ ≤ s.length * s.length := Nat.mul_le_mul_left _ (cnt_le s)

/-- Search inside group 3 of the `modifyHtmlStructure` pattern: find the
least lazy expansion `t` such that the closing tag (`</ul>`/`</ol>`,
case-insensitive) is followed immediately by `</li>` (case-insensitive),
exactly as the backtracking regex engine does. Returns
`(t, closing, liClosing, rest)`. -/
def findCloseG (clPat : Str) : Str → Option (Str × Str × Str × Str)
  | [] => none
  | c :: rest =>
    if ciPre clPat (c :: rest) && ciPre "</li>".data ((c :: rest).drop clPat.length) then
      some ([], (c :: rest).take clPat.length,
            ((c :: rest).drop clPat.length).take 5,
            ((c :: rest).drop clPat.length).drop 5)
    else
      match findCloseG clPat rest with
      | some (t, e, l5, C) => some (c :: t, e, l5, C)
      | none => none

/-- Group 3 of the pattern (`<ul[\s\S]*?<\/ul>|<ol[\s\S]*?<\/ol>`) tried at
the current position, together with the mandatory `</li>` right after it
(the alternatives are mutually exclusive on their second character).
Returns the matched sub-list `S`, the matched `</li>` characters, and the
rest. -/
def tryG3 (r : Str) : Option (Str × Str × Str) :=
  if ciPre "<ul".data r then
    match findCloseG "</ul>".data (r.drop 3) with
    | some (t, e, l5, C) => some (r.take 3 ++ t ++ e, l5, C)
    | none => none
  else if ciPre "<ol".data r then
    match findCloseG "</ol>".data (r.drop 3) with
    | some (t, e, l5, C) => some (r.take 3 ++ t ++ e, l5, C)
    | none => none
  else none

/-- The lazy group 2 (`[\s\S]*?`): grow `b` from the left until group 3
(followed by `</li>`) matches. -/
def matchBody : Str → Option (Str × Str × Str × Str)
  | [] => none
  | c :: rest =>
    match tryG3 (c :: rest) with
    | some (S, l5, C) => some ([], S, l5, C)
    | none =>
      match matchBody rest with
      | some (b, S, l5, C) => some (c :: b, S, l5, C)
      | none => none

/-- One full match of the `modifyHtmlStructure` pattern
`<li([^>]*)>([\s\S]*?)(<ul[\s\S]*?<\/ul>|<ol[\s\S]*?<\/ol>)<\/li>` (with
the `i` flag): text before the match, the matched `<li` characters, the
group-1 attributes, group 2, group 3, the matched `</li>` characters and
the text after the match. -/
structure LiMatch where
  A : Str
  li3 : Str
  a : Str
  b : Str
  S : Str
  cl5 : Str
  C : Str
deriving DecidableEq

/-- Attempt the pattern (everything after the leading `<li`) at the start
of `s`: greedy `[^>]*`, the literal `>`, then the lazy body. -/
def tryMatchAt (s : Str) : Option LiMatch :=
  if ciPre "<li".data s then
    let r := s.drop 3
    let a := r.takeWhile (· != '>')
    match r.drop a.length with
    | '>' :: r2 =>
      match matchBody r2 with
      | some (b, S, l5, C) => some ⟨[], s.take 3, a, b, S, l5, C⟩
      | none => none
    | _ => none
  else none

/-- Leftmost match of the `modifyHtmlStructure` pattern in `s` (the
`RegExp.prototype.test` / non-global `replace` search). -/
def findPat : Str → Option LiMatch
  | [] => none
  | c :: rest =>
    match tryMatchAt (c :: rest) with
    | some m => some m
    | none =>
      match findPat rest with
      | some m => some { m with A := c :: m.A }
      | none => none

/-- The matched slice reassembled: the matched text is
`li3 ++ a ++ '>' ++ b ++ S ++ cl5` between `A` and `C`. -/
def recompose (m : LiMatch) : Str :=
  m.A ++ (m.li3 ++ (m.a ++ ('>' :: (m.b ++ (m.S ++ (m.cl5 ++ m.C))))))

/-- The replacement `"<li$1>$2</li>$3"` spliced back between `A` and `C`
(the template's `<li`, `>` and `</li>` are literal lowercase). -/
def rewriteParts (m : LiMatch) : Str :=
  m.A ++ ("<li".data ++ (m.a ++ ('>' :: (m.b ++ ("</li>".data ++ (m.S ++ m.C))))))

/-- The structural facts delivered by a successful match: the input is the
reassembled slice, the matched `<li`/`</li>` are case variants of the
literals, the sub-list `S` opens with `<ul`/`<ol` (case-insensitive), and
`S` ends in two characters that are not `<` (the tail of its closing
`</ul>`/`</ol>`). -/
def SoundMatch (s : Str) (m : LiMatch) : Prop :=
  s = recompose m
    ∧ m.li3.map lc = "<li".data.map lc
    ∧ m.cl5.map lc = "</li>".data.map lc
    ∧ ulAt m.S = true
    ∧ (∃ p q, [p, q] <:+ m.S ∧ lc p ≠ '<' ∧ lc q ≠ '<')

theorem ciPre_mapLc_take (pat : Str) :
    ∀ s, ciPre pat s = true → (s.take pat.length).map lc = pat.map lc := by
  induction pat with
  | nil => intro s _; simp
  | cons p ps ih =>
    intro s h
    cases s with
    | nil => simp [ciPre] at h
    | cons c cs =>
      simp only [ciPre, Bool.and_eq_true, beq_iff_eq] at h
      simp only [List.length_cons, List.take_succ_cons, List.map_cons]
      rw [ih cs h.2, h.1]

theorem ciPre_head {p : Char} {ps s : Str} (h : ciPre (p :: ps) s = true) :
    ∃ c cs, s = c :: cs ∧ lc c = lc p := by
  cases s with
  | nil => simp [ciPre] at h
  | cons c cs =>
    simp only [ciPre, Bool.and_eq_true, beq_iff_eq] at h
    exact ⟨c, cs, rfl, h.1.symm⟩

theorem last2_of_mapLc5 {u : Str} {a b c d e : Char}
    (h : u.map lc = [a, b, c, d, e]) :
    ∃ p q, [p, q] <:+ u ∧ lc p = d ∧ lc q = e := by
  rcases u with _ | ⟨u0, _ | ⟨u1, _ | ⟨u2, _ | ⟨u3, _ | ⟨u4, _ | ⟨u5, rest⟩⟩⟩⟩⟩⟩
  · simp at h
  · simp at h
  · simp at h
  · simp at h
  · simp at h
  · simp only [List.map_cons, List.map_nil, List.cons.injEq, and_true] at h
    obtain ⟨h0, h1, h2, h3, h4⟩ := h
    exact ⟨u3, u4, ⟨[u0, u1, u2], rfl⟩, h3, h4⟩
  · simp at h

theorem findCloseG_sound (clPat : Str) :
    ∀ u t e l5 C, findCloseG clPat u = some (t, e, l5, C) →
      u = t ++ (e ++ (l5 ++ C))
        ∧ e.map lc = clPat.map lc
        ∧ l5.map lc = "</li>".data.map lc := by
  intro u
  induction u with
  | nil => intro t e l5 C h; simp [findCloseG] at h
  | cons c rest ih =>
    intro t e l5 C h
    rw [findCloseG] at h
    split at h
    · next hc =>
      simp only [Bool.and_eq_true] at hc
      simp only [Option.some.injEq, Prod.mk.injEq] at h
      obtain ⟨rfl, rfl, rfl, rfl⟩ := h
      refine ⟨?_, ciPre_mapLc_take clPat _ hc.1, ?_⟩
      · conv_lhs => rw [← List.take_append_drop clPat.length (c :: rest)]
        conv_lhs =>
          rw [show (c :: rest).drop clPat.length
              = ((c :: rest).drop clPat.length).take 5
                ++ ((c :: rest).drop clPat.length).drop 5 from
            (List.take_append_drop 5 _).symm]
        simp
      · have := ciPre_mapLc_take "</li>".data _ hc.2
        simpa using this
    · next =>
      cases hrec : findCloseG clPat rest with
      | none => rw [hrec] at h; exact absurd h (by simp)
      | some q =>
        obtain ⟨t', e', l5', C'⟩ := q
        rw [hrec] at h
        simp only [Option.some.injEq, Prod.mk.injEq] at h
        obtain ⟨rfl, rfl, rfl, rfl⟩ := h
        obtain ⟨hdec, hmap, hmap5⟩ := ih t' e' l5' C' hrec
        refine ⟨?_, hmap, hmap5⟩
        simp [hdec]

theorem take3_map_of_ciPre {pat r : Str} (z : Str) (hlen : pat.length = 3)
    (h : ciPre pat r = true) : ciPre pat (r.take 3 ++ z) = true := by
  have h3 : pat.length ≤ r.length := ciPre_le_length pat r h
  have htk : pat.length ≤ (r.take 3).length := by
    simp only [List.length_take]
    omega
  rw [ciPre_append_of_le pat _ z htk]
  have hfull : ciPre pat (r.take 3 ++ r.drop 3) = true := by
    rw [List.take_append_drop]
    exact h
  rw [ciPre_append_of_le pat _ _ htk] at hfull
  exact hfull

theorem tryG3_sound (r S l5 C : Str) (h : tryG3 r = some (S, l5, C)) :
    r = S ++ (l5 ++ C)
      ∧ l5.map lc = "</li>".data.map lc
      ∧ ulAt S = true
      ∧ (∃ p q, [p, q] <:+ S ∧ lc p ≠ '<' ∧ lc q ≠ '<') := by
  unfold tryG3 at h
  split at h
  · next hul =>
    cases hrec : findCloseG "</ul>".data (r.drop 3) with
    | none => rw [hrec] at h; exact absurd h (by simp)
    | some q =>
      obtain ⟨t, e, l5', C'⟩ := q
      rw [hrec] at h
      simp only [Option.some.injEq, Prod.mk.injEq] at h
      obtain ⟨hS, hl5, hC⟩ := h
      subst hS hl5 hC
      obtain ⟨hdec, hmap, hmap5⟩ := findCloseG_sound _ _ _ _ _ _ hrec
      refine ⟨?_, hmap5, ?_, ?_⟩
      · conv_lhs => rw [← List.take_append_drop 3 r, hdec]
        simp
      · unfold ulAt
        rw [show r.take 3 ++ t ++ e = r.take 3 ++ (t ++ e) by simp]
        rw [take3_map_of_ciPre _ (by decide) hul]
        simp
      · have : e.map lc = ['<', '/', 'u', 'l', '>'] := by
          rw [hmap]; decide
        obtain ⟨p, q, hs, hp, hq⟩ := last2_of_mapLc5 this
        refine ⟨p, q, ?_, by rw [hp]; decide, by rw [hq]; decide⟩
        exact hs.trans ⟨r.take 3 ++ t, rfl⟩
  · split at h
    · next hol =>
      cases hrec : findCloseG "</ol>".data (r.drop 3) with
      | none => rw [hrec] at h; exact absurd h (by simp)
      | some q =>
        obtain ⟨t, e, l5', C'⟩ := q
        rw [hrec] at h
        simp only [Option.some.injEq, Prod.mk.injEq] at h
        obtain ⟨hS, hl5, hC⟩ := h
        subst hS hl5 hC
        obtain ⟨hdec, hmap, hmap5⟩ := findCloseG_sound _ _ _ _ _ _ hrec
        refine ⟨?_, hmap5, ?_, ?_⟩
        · conv_lhs => rw [← List.take_append_drop 3 r, hdec]
          simp
        · unfold ulAt
          rw [show r.take 3 ++ t ++ e = r.take 3 ++ (t ++ e) by simp]
          rw [take3_map_of_ciPre _ (by decide) hol]
          simp
        · have : e.map lc = ['<', '/', 'o', 'l', '>'] := by
            rw [hmap]; decide
          obtain ⟨p, q, hs, hp, hq⟩ := last2_of_mapLc5 this
          refine ⟨p, q, ?_, by rw [hp]; decide, by rw [hq]; decide⟩
          exact hs.trans ⟨r.take 3 ++ t, rfl⟩
    · exact absurd h (by simp)

theorem matchBody_sound :
    ∀ r2 b S l5 C, matchBody r2 = some (b, S, l5, C) →
      r2 = b ++ (S ++ (l5 ++ C))
        ∧ l5.map lc = "</li>".data.map lc
        ∧ ulAt S = true
        ∧ (∃ p q, [p, q] <:+ S ∧ lc p ≠ '<' ∧ lc q ≠ '<') := by
  intro r2
  induction r2 with
  | nil => intro b S l5 C h; simp [matchBody] at h
  | cons c rest ih =>
    intro b S l5 C h
    rw [matchBody] at h
    cases hg : tryG3 (c :: rest) with
    | some q =>
      obtain ⟨S', l5', C'⟩ := q
      rw [hg] at h
      simp only [Option.some.injEq, Prod.mk.injEq] at h
      obtain ⟨rfl, rfl, rfl, rfl⟩ := h
      obtain ⟨hdec, hmap5, hua, hlast⟩ := tryG3_sound _ _ _ _ hg
      exact ⟨by simpa using hdec, hmap5, hua, hlast⟩
    | none =>
      rw [hg] at h
      cases hrec : matchBody rest with
      | none => rw [hrec] at h; exact absurd h (by simp)
      | some q =>
        obtain ⟨b', S', l5', C'⟩ := q
        rw [hrec] at h
        simp only [Option.some.injEq, Prod.mk.injEq] at h
        obtain ⟨rfl, rfl, rfl, rfl⟩ := h
        obtain ⟨hdec, hmap5, hua, hlast⟩ := ih b' S' l5' C' hrec
        exact ⟨by simp [hdec], hmap5, hua, hlast⟩

theorem tryMatchAt_sound (s : Str) (m : LiMatch) (h : tryMatchAt s = some m) :
    m.A = [] ∧ SoundMatch s m := by
  unfold tryMatchAt at h
  split at h
  · next hli =>
    dsimp only at h
    split at h
    · next hgt =>
      cases hmb : matchBody _ with
      | none => rw [hmb] at h; exact absurd h (by simp)
      | some q =>
        obtain ⟨b, S, l5, C⟩ := q
        rw [hmb] at h
        simp only [Option.some.injEq] at h
        subst h
        obtain ⟨hdec, hmap5, hua, hlast⟩ := matchBody_sound _ _ _ _ _ hmb
        refine ⟨rfl, ?_, ?_, hmap5, hua, hlast⟩
        · show s = s.take 3 ++ _
          conv_lhs => rw [← List.take_append_drop 3 s]
          congr 1
          have hpref : (s.drop 3).takeWhile (· != '>')
              = (s.drop 3).take ((s.drop 3).takeWhile (· != '>')).length :=
            List.prefix_iff_eq_take.mp (List.takeWhile_prefix _)
          conv_lhs => rw [← List.take_append_drop
            ((s.drop 3).takeWhile (· != '>')).length (s.drop 3)]
          rw [← hpref, hgt, hdec]
        · exact ciPre_mapLc_take "<li".data s hli
    · exact absurd h (by simp)
  · exact absurd h (by simp)

theorem findPat_sound :
    ∀ (s : Str) (m : LiMatch), findPat s = some m → SoundMatch s m := by
  intro s
  induction s with
  | nil => intro m h; simp [findPat] at h
  | cons c rest ih =>
    intro m h
    rw [findPat] at h
    cases hta : tryMatchAt (c :: rest) with
    | some m' =>
      rw [hta] at h
      simp only [Option.some.injEq] at h
      subst h
      exact (tryMatchAt_sound _ _ hta).2
    | none =>
      rw [hta] at h
      cases hrec : findPat rest with
      | none => rw [hrec] at h; exact absurd h (by simp)
      | some m' =>
        rw [hrec] at h
        simp only [Option.some.injEq] at h
        subst h
        obtain ⟨hdec, hli, hcl, hua, hlast⟩ := ih m' hrec
        refine ⟨?_, hli, hcl, hua, hlast⟩
        show c :: rest = (c :: m'.A) ++ _
        rw [List.cons_append]
        rw [hdec]
        rfl

theorem explicit3_of_mapLc {u : Str} {a b c : Char} (h : u.map lc = [a, b, c]) :
    ∃ u0 u1 u2, u = [u0, u1, u2] ∧ lc u0 = a ∧ lc u1 = b ∧ lc u2 = c := by
  rcases u with _ | ⟨u0, _ | ⟨u1, _ | ⟨u2, _ | ⟨u3, rest⟩⟩⟩⟩
  · simp at h
  · simp at h
  · simp at h
  · simp only [List.map_cons, List.map_nil, List.cons.injEq, and_true] at h
    obtain ⟨h0, h1, h2⟩ := h
    exact ⟨u0, u1, u2, rfl, h0, h1, h2⟩
  · simp at h

theorem explicit5_of_mapLc {u : Str} {a b c d e : Char}
    (h : u.map lc = [a, b, c, d, e]) :
    ∃ u0 u1 u2 u3 u4, u = [u0, u1, u2, u3, u4]
      ∧ lc u0 = a ∧ lc u1 = b ∧ lc u2 = c ∧ lc u3 = d ∧ lc u4 = e := by
  rcases u with _ | ⟨u0, _ | ⟨u1, _ | ⟨u2, _ | ⟨u3, _ | ⟨u4, _ | ⟨u5, rest⟩⟩⟩⟩⟩⟩
  · simp at h
  · simp at h
  · simp at h
  · simp at h
  · simp at h
  · simp only [List.map_cons, List.map_nil, List.cons.injEq, and_true] at h
    obtain ⟨h0, h1, h2, h3, h4⟩ := h
    exact ⟨u0, u1, u2, u3, u4, rfl, h0, h1, h2, h3, h4⟩
  · simp at h

theorem bok_of_head_char {y : Str} {c0 : Char} {cs : Str} (hy : y = c0 :: cs)
    (h0 : lc c0 ≠ 'u') (h1 : lc c0 ≠ 'o') (h2 : lc c0 ≠ 'l') (x : Str) :
    bok x y :=
  bok_of_head (fun c cs' heq => by
    rw [hy] at heq
    injection heq with hc _
    subst hc
    exact ⟨h0, h1, h2⟩) x

theorem head_lt_of_ulAt {S : Str} (h : ulAt S = true) :
    ∃ s0 ss, S = s0 :: ss ∧ lc s0 = '<' := by
  unfold ulAt at h
  rw [Bool.or_eq_true] at h
  rcases h with h1 | h1
  · obtain ⟨c, cs, rfl, hlc⟩ := ciPre_head h1
    exact ⟨c, cs, rfl, hlc.trans (by decide)⟩
  · obtain ⟨c, cs, rfl, hlc⟩ := ciPre_head h1
    exact ⟨c, cs, rfl, hlc.trans (by decide)⟩

theorem psum_cons (c : Char) (t : Str) : psum (c :: t) = psum t + cnt t := rfl

theorem cnt_cons_gt (z : Str) : cnt ('>' :: z) = cnt z := by
  show (if ulAt ('>' :: z) then 1 else 0) + cnt z = cnt z
  rw [ulAt_cons_ne (show lc '>' ≠ '<' by decide)]
  simp

/-- The heart of the termination argument: a rewrite of the
`modifyHtmlStructure` pattern preserves the length of the string, moves
every sub-list opening inside the matched sub-list `S` exactly five
characters to the right and moves no other opening, so the position sum
grows by `5 * cnt S ≥ 5`. -/
theorem rewrite_facts {s : Str} {m : LiMatch} (h : SoundMatch s m) :
    (rewriteParts m).length = s.length
      ∧ psum (rewriteParts m) = psum s + 5 * cnt m.S
      ∧ 1 ≤ cnt m.S := by
  obtain ⟨hdec, hli, hcl, hua, p, q, hpq, hp, hq⟩ := h
  have hli' : m.li3.map lc = ['<', 'l', 'i'] := by rw [hli]; decide
  have hcl' : m.cl5.map lc = ['<', '/', 'l', 'i', '>'] := by rw [hcl]; decide
  obtain ⟨x0, x1, x2, hli3eq, hx0, hx1, hx2⟩ := explicit3_of_mapLc hli'
  obtain ⟨y0, y1, y2, y3, y4, hcl5eq, hy0, hy1, hy2, hy3, hy4⟩ :=
    explicit5_of_mapLc hcl'
  obtain ⟨s0, ss, hSeq, hs0⟩ := head_lt_of_ulAt hua
  -- concrete pieces
  have hcli : cnt m.li3 = 0 := by rw [cnt_congr hli]; decide
  have hpli : psum m.li3 = 0 := by rw [psum_congr hli]; decide
  have hccl : cnt m.cl5 = 0 := by rw [cnt_congr hcl]; decide
  have hpcl : psum m.cl5 = 0 := by rw [psum_congr hcl]; decide
  have hlli : m.li3.length = 3 := by rw [mapLc_length hli]; decide
  have hlcl : m.cl5.length = 5 := by rw [mapLc_length hcl]; decide
  have hcntS : 1 ≤ cnt m.S := by
    rw [hSeq] at hua ⊢
    show 1 ≤ (if ulAt (s0 :: ss) then 1 else 0) + cnt ss
    rw [hua]
    simp
  -- boundary facts for the original string
  have bCl : bok m.cl5 m.C :=
    bok_of_last2 y3 y4 ⟨[y0, y1, y2], by simp [hcl5eq]⟩
      (by rw [hy3]; decide) (by rw [hy4]; decide) m.C
  have bS : bok m.S (m.cl5 ++ m.C) :=
    bok_of_head_char (show m.cl5 ++ m.C = y0 :: ([y1, y2, y3, y4] ++ m.C) by
        rw [hcl5eq]; rfl)
      (by rw [hy0]; decide) (by rw [hy0]; decide) (by rw [hy0]; decide) m.S
  have bb : bok m.b (m.S ++ (m.cl5 ++ m.C)) :=
    bok_of_head_char (show m.S ++ (m.cl5 ++ m.C) = s0 :: (ss ++ (m.cl5 ++ m.C)) by
        rw [hSeq]; rfl)
      (by rw [hs0]; decide) (by rw [hs0]; decide) (by rw [hs0]; decide) m.b
  have ba : bok m.a ('>' :: (m.b ++ (m.S ++ (m.cl5 ++ m.C)))) :=
    bok_of_head_char rfl (by decide) (by decide) (by decide) m.a
  have bLi : bok m.li3 (m.a ++ ('>' :: (m.b ++ (m.S ++ (m.cl5 ++ m.C))))) :=
    bok_of_last2 x1 x2 ⟨[x0], by simp [hli3eq]⟩
      (by rw [hx1]; decide) (by rw [hx2]; decide) _
  have bA : bok m.A (m.li3 ++ (m.a ++ ('>' :: (m.b ++ (m.S ++ (m.cl5 ++ m.C)))))) :=
    bok_of_head_char (show m.li3 ++ (m.a ++ ('>' :: (m.b ++ (m.S ++ (m.cl5 ++ m.C)))))
          = x0 :: ([x1, x2] ++ (m.a ++ ('>' :: (m.b ++ (m.S ++ (m.cl5 ++ m.C)))))) by
        rw [hli3eq]; rfl)
      (by rw [hx0]; decide) (by rw [hx0]; decide) (by rw [hx0]; decide) m.A
  -- boundary facts for the rewritten string
  have bS2 : bok m.S m.C := bok_of_last2 p q hpq hp hq m.C
  have bCl2 : bok "</li>".data (m.S ++ m.C) :=
    bok_of_last2 'i' '>' ⟨"</l".data, by decide⟩ (by decide) (by decide) _
  have bb2 : bok m.b ("</li>".data ++ (m.S ++ m.C)) :=
    bok_of_head_char (show "</li>".data ++ (m.S ++ m.C)
          = '<' :: ("/li>".data ++ (m.S ++ m.C)) from rfl)
      (by decide) (by decide) (by decide) m.b
  have ba2 : bok m.a ('>' :: (m.b ++ ("</li>".data ++ (m.S ++ m.C)))) :=
    bok_of_head_char rfl (by decide) (by decide) (by decide) m.a
  have bLi2 : bok "<li".data (m.a ++ ('>' :: (m.b ++ ("</li>".data ++ (m.S ++ m.C))))) :=
    bok_of_last2 'l' 'i' ⟨"<".data, by decide⟩ (by decide) (by decide) _
  have bA2 : bok m.A ("<li".data ++ (m.a ++ ('>' :: (m.b ++ ("</li>".data ++ (m.S ++ m.C)))))) :=
    bok_of_head_char (show "<li".data ++ (m.a ++ ('>' :: (m.b ++ ("</li>".data ++ (m.S ++ m.C)))))
          = '<' :: ("li".data ++ (m.a ++ ('>' :: (m.b ++ ("</li>".data ++ (m.S ++ m.C)))))) from rfl)
      (by decide) (by decide) (by decide) m.A
  refine ⟨?_, ?_, hcntS⟩
  · rw [hdec]
    simp only [recompose, rewriteParts, List.length_append, List.length_cons,
      List.length_nil, hlli, hlcl]
    omega
  · rw [hdec]
    simp only [recompose, rewriteParts]
    rw [psum_append bA2]
    rw [psum_append bA]
    rw [psum_append bLi2]
    rw [psum_append bLi]
    rw [psum_append ba2]
    rw [psum_append ba]
    rw [psum_cons '>' (m.b ++ ("</li>".data ++ (m.S ++ m.C)))]
    rw [psum_cons '>' (m.b ++ (m.S ++ (m.cl5 ++ m.C)))]
    rw [psum_append bb2]
    rw [psum_append bb]
    rw [psum_append bCl2]
    rw [psum_append bS2]
    rw [psum_append bS]
    rw [psum_append bCl]
    rw [cnt_append bLi2]
    rw [cnt_append bLi]
    rw [cnt_append ba2]
    rw [cnt_append ba]
    rw [cnt_cons_gt (m.b ++ ("</li>".data ++ (m.S ++ m.C)))]
    rw [cnt_cons_gt (m.b ++ (m.S ++ (m.cl5 ++ m.C)))]
    rw [cnt_append bb2]
    rw [cnt_append bb]
    rw [cnt_append bCl2]
    rw [cnt_append bS2]
    rw [cnt_append bS]
    rw [cnt_append bCl]
    rw [hcli, hpli, hccl, hpcl, hlli, hlcl]
    have c1 : cnt "<li".data = 0 := by decide
    have c2 : psum "<li".data = 0 := by decide
    have c3 : cnt "</li>".data = 0 := by decide
    have c4 : psum "</li>".data = 0 := by decide
    have c5 : ("<li>".data).length = 4 := by decide
    have c6 : ("<li".data).length = 3 := by decide
    have c7 : ("</li>".data).length = 5 := by decide
    rw [c1, c2, c3, c4, c6, c7]
    ring

/-- The termination measure: length squared minus the position sum of
sub-list openings (the length is invariant under the rewrite, the sum
strictly grows, and the sum is bounded by length squared). -/
def natMeasure (s : Str) : Nat := s.length * s.length - psum s

theorem measure_decrease {s : Str} {m : LiMatch} (h : findPat s = some m) :
    natMeasure (rewriteParts m) < natMeasure s := by
  obtain ⟨hlen, hpsum, hcnt⟩ := rewrite_facts (findPat_sound s m h)
  have hb : psum (rewriteParts m) ≤ s.length * s.length := by
    have := psum_le (rewriteParts m)
    rw [hlen] at this
    exact this
  unfold natMeasure
  rw [hlen]
  have h5 : 5 ≤ 5 * cnt m.S := by omega
  omega

/-- The `while (pattern.test(output))` loop of `modifyHtmlStructure`,
fuel-driven: when the pattern no longer matches, the string is returned;
otherwise the first match is replaced and the loop repeats. -/
def modLoop : Nat → Str → Str
  | 0, s => s
  | f + 1, s =>
    match findPat s with
    | none => s
    | some m => modLoop f (rewriteParts m)

/-- `modifyHtmlStructure(htmlString)`: the fuel `length² + 1` is proved
sufficient below (`findPat_modify_none`), so this equals the fixed point
the source's unbounded loop reaches. -/
def modifyHtmlStructure (s : Str) : Str :=
  modLoop (s.length * s.length + 1) s

theorem modLoop_of_none {s : Str} (h : findPat s = none) :
    ∀ f, modLoop f s = s := by
  intro f
  cases f with
  | zero => rfl
  | succ f => rw [modLoop, h]

theorem modLoop_fix : ∀ (f : Nat) (s : Str), natMeasure s < f →
    findPat (modLoop f s) = none := by
  intro f
  induction f with
  | zero => intro s h; omega
  | succ f ih =>
    intro s h
    rw [modLoop]
    cases hf : findPat s with
    | none => exact hf
    | some m =>
      exact ih _ (lt_of_lt_of_le (measure_decrease hf) (Nat.lt_succ_iff.mp h))

theorem findPat_modify_none (s : Str) :
    findPat (modifyHtmlStructure s) = none := by
  apply modLoop_fix
  unfold natMeasure
  have := psum_le s
  omega

/-- Claim C8: the HTML structure-repair pass is idempotent — after the
loop exits, the pattern no longer matches, so a second application finds
nothing to rewrite and returns its input unchanged (proved here for every
input, since the loop always reaches its fixed point). -/
theorem c8_modify_idempotent (s : Str) :
    modifyHtmlStructure (modifyHtmlStructure s) = modifyHtmlStructure s :=
  modLoop_of_none (findPat_modify_none s) _

/-- Claim C10: the fixed-point loop of `modifyHtmlStructure` terminates:
each rewrite strictly decreases the well-founded measure
`length² − psum` (the length is preserved and the position sum of
sub-list openings strictly grows), so after finitely many rewrites — and
in particular within the definitional fuel — the malformed pattern no
longer matches. -/
theorem c10_termination :
    (∀ (s : Str) (m : LiMatch), findPat s = some m →
        natMeasure (rewriteParts m) < natMeasure s)
      ∧ (∀ s : Str, findPat (modifyHtmlStructure s) = none) :=
  ⟨fun _ _ h => measure_decrease h, findPat_modify_none⟩

/-- A minimal malformed nesting: a sub-list inside its parent `<li>`. -/
def c10ex : Str := "<li><ul></ul></li>".data

/-- The match `findPat` finds in `c10ex`. -/
def c10m : LiMatch :=
  ⟨[], "<li".data, [], [], "<ul></ul>".data, "</li>".data, []⟩

/-- Witness for C10: on the concrete malformed input the hypothesis
`findPat s = some m` is discharged by computation and the measure strictly
decreases; the repaired output no longer matches. -/
theorem c10_termination_witness :
    natMeasure (rewriteParts c10m) < natMeasure c10ex
      ∧ findPat (modifyHtmlStructure c10ex) = none := by
  constructor
  · exact c10_termination.1 c10ex c10m (by decide)
  · exact c10_termination.2 c10ex

end BaoyuMd
